import Mathlib

/-!
Shallow embedding of the VecBase vector store (src/vcore/src/{embedding,processing,lib}.rs).

Modelling conventions:
* `f32` scalars are embedded as `ℚ`.  The square root (used only by
  `magnitude`, hence `normalize`, and by `euclidean_distance`) is not
  rational, so every definition that can reach it is parameterized by a
  function `sq : ℚ → ℚ` standing for `f32::sqrt`; all theorems hold for
  every interpretation of `sq`.
* Rust `HashMap<String, _>` is embedded as an association list
  `List (String × _)`; `mapInsert` replaces the value in place when the key
  is present and appends otherwise, `mapRemove` filters the key out.
  Iteration order of a `HashMap` is unspecified in Rust, so the list order
  is a model choice; the claims below do not depend on it.
* Fallible operations (`VecBase::insert`, `VecBase::delete`) return an
  `Except` paired with the post state.
-/

namespace Vcore

-- ── embedding.rs ────────────────────────────────────────────────────────────

/-- `Metric` (embedding.rs). -/
inductive Metric where
  | Cosine
  | Euclidean
  | DotProduct
deriving DecidableEq

/-- `magnitude` (embedding.rs): `sqrt (Σ v_i²)`; `sq` models `f32::sqrt`. -/
def magnitude (sq : ℚ → ℚ) (v : List ℚ) : ℚ :=
  sq ((v.map (fun x => x * x)).sum)

/-- `normalize` (embedding.rs): return `v` unchanged when `magnitude v < 1e-10`,
else divide every component by the magnitude. -/
def normalize (sq : ℚ → ℚ) (v : List ℚ) : List ℚ :=
  let mag := magnitude sq v
  if mag < 1 / 10 ^ 10 then v else v.map (fun x => x / mag)

/-- `dot` (embedding.rs): pairwise product sum, truncated to the shorter list
(`zip`). -/
def dot (a b : List ℚ) : ℚ :=
  ((a.zip b).map (fun p => p.1 * p.2)).sum

/-- `euclidean_distance_sq` (embedding.rs). -/
def euclidean_distance_sq (a b : List ℚ) : ℚ :=
  ((a.zip b).map (fun p => (p.1 - p.2) * (p.1 - p.2))).sum

/-- `euclidean_distance` (embedding.rs). -/
def euclidean_distance (sq : ℚ → ℚ) (a b : List ℚ) : ℚ :=
  sq (euclidean_distance_sq a b)

/-- `score` (embedding.rs): higher = better; Cosine and DotProduct are the raw
dot product, Euclidean is the negated distance. -/
def score (sq : ℚ → ℚ) (metric : Metric) (query candidate : List ℚ) : ℚ :=
  match metric with
  | Metric.Cosine => dot query candidate
  | Metric.DotProduct => dot query candidate
  | Metric.Euclidean => - euclidean_distance sq query candidate

-- ── HashMap model ───────────────────────────────────────────────────────────

/-- Model of `HashMap::insert`: replace in place if the key is present,
append otherwise. -/
def mapInsert {α : Type} (k : String) (v : α) (l : List (String × α)) :
    List (String × α) :=
  if l.any (fun p => p.1 = k) then
    l.map (fun p => if p.1 = k then (k, v) else p)
  else
    l ++ [(k, v)]

/-- Model of `HashMap::get`. -/
def mapLookup {α : Type} (k : String) : List (String × α) → Option α
  | [] => none
  | p :: ps => if p.1 = k then some p.2 else mapLookup k ps

/-- Model of `HashMap::remove` (the removed value itself is recovered via
`mapLookup` where needed). -/
def mapRemove {α : Type} (k : String) (l : List (String × α)) :
    List (String × α) :=
  l.filter (fun p => p.1 ≠ k)

-- ── Sorting (model of Vec::sort_by with a descending score comparator) ──────

/-- Insert into a list that is sorted descending by `f`. -/
def insertDescBy {α : Type} (f : α → ℚ) (x : α) : List α → List α
  | [] => [x]
  | y :: ys => if f y < f x then x :: y :: ys else y :: insertDescBy f x ys

/-- Sort descending by `f` (models `sort_by(|a, b| b.cmp(a))` on scores). -/
def sortDescBy {α : Type} (f : α → ℚ) (l : List α) : List α :=
  l.foldr (insertDescBy f) []

theorem insertDescBy_perm {α : Type} (f : α → ℚ) (x : α) (l : List α) :
    List.Perm (insertDescBy f x l) (x :: l) := by
  induction l with
  | nil => simp [insertDescBy]
  | cons y ys ih =>
      simp only [insertDescBy]
      split
      · exact List.Perm.refl _
      · exact (List.Perm.cons y ih).trans (List.Perm.swap x y ys)

theorem sortDescBy_perm {α : Type} (f : α → ℚ) (l : List α) :
    List.Perm (sortDescBy f l) l := by
  induction l with
  | nil => simp [sortDescBy]
  | cons x xs ih =>
      simp only [sortDescBy, List.foldr] at *
      exact (insertDescBy_perm f x _).trans (List.Perm.cons x ih)

theorem insertDescBy_pairwise {α : Type} (f : α → ℚ) (x : α) (l : List α)
    (h : List.Pairwise (fun a b => f b ≤ f a) l) :
    List.Pairwise (fun a b => f b ≤ f a) (insertDescBy f x l) := by
  induction l with
  | nil => simp [insertDescBy]
  | cons y ys ih =>
      rcases List.pairwise_cons.mp h with ⟨hy, hys⟩
      simp only [insertDescBy]
      split
      · rename_i hlt
        refine List.pairwise_cons.mpr ⟨?_, h⟩
        intro b hb
        rcases List.mem_cons.mp hb with rfl | hb'
        · exact le_of_lt hlt
        · exact le_trans (hy b hb') (le_of_lt hlt)
      · rename_i hge
        refine List.pairwise_cons.mpr ⟨?_, ih hys⟩
        intro b hb
        have hbx : b ∈ x :: ys := (insertDescBy_perm f x ys).mem_iff.mp hb
        rcases List.mem_cons.mp hbx with rfl | hb'
        · exact not_lt.mp hge
        · exact hy b hb'

theorem sortDescBy_pairwise {α : Type} (f : α → ℚ) (l : List α) :
    List.Pairwise (fun a b => f b ≤ f a) (sortDescBy f l) := by
  induction l with
  | nil => simp [sortDescBy]
  | cons x xs ih =>
      simpa only [sortDescBy, List.foldr] using insertDescBy_pairwise f x _ ih

-- ── processing.rs : HNSW node and index ─────────────────────────────────────

/-- `Node` (processing.rs): id, stored vector, neighbor lists per layer
(only layer 0 is ever created: `vec![Vec::new()]`). -/
structure Node where
  id : String
  vector : List ℚ
  neighbors : List (List String)
deriving DecidableEq

/-- The layer-0 neighbor list, `node.neighbors[0]` (the list always has
exactly one layer in states the code constructs). -/
def layer0 (n : Node) : List String :=
  n.neighbors.headD []

/-- Overwrite `node.neighbors[0]`. -/
def setLayer0 (n : Node) (l : List String) : Node :=
  { n with neighbors := l :: n.neighbors.tail }

/-- `HnswIndex` (processing.rs). -/
structure HnswIndex where
  dim : Nat
  max_elements : Nat
  nodes : List (String × Node)
  m : Nat
  entry : Option String
deriving DecidableEq

/-- `BRUTE_THRESHOLD` (processing.rs). -/
def BRUTE_THRESHOLD : Nat := 500

/-- `HnswIndex::new` (processing.rs): empty index, `m = 16`, no entry. -/
def HnswIndex.new (dim max_elements : Nat) : HnswIndex :=
  { dim := dim, max_elements := max_elements, nodes := [], m := 16,
    entry := none }

/-- `HnswIndex::brute_search` (processing.rs): score every node, sort
descending by score, truncate to `top_k`. -/
def HnswIndex.brute_search (sq : ℚ → ℚ) (idx : HnswIndex) (query : List ℚ)
    (top_k : Nat) (metric : Metric) : List (String × ℚ) :=
  let scored := idx.nodes.map (fun p => (p.2.id, score sq metric query p.2.vector))
  (sortDescBy (fun r => r.2) scored).take top_k

/-- The body of the back-link loop in `HnswIndex::insert` (processing.rs):
`if let Some(neighbor) = nodes.get_mut(nid) { if neighbor.neighbors[0].len() <
m { neighbor.neighbors[0].push(id) } }`. -/
def pushBacklink (m : Nat) (id : String) (acc : List (String × Node))
    (p : String × ℚ) : List (String × Node) :=
  match mapLookup p.1 acc with
  | some nb =>
      if (layer0 nb).length < m then
        mapInsert p.1 (setLayer0 nb (layer0 nb ++ [id])) acc
      else acc
  | none => acc

/-- `HnswIndex::insert` (processing.rs): silent no-op at capacity; when the
graph is non-empty, select up to `m` nearest nodes (always scored under
`Metric.Cosine`), make them the new node's layer-0 neighbors, and append a
best-effort back-link to each selected neighbor whose list has fewer than `m`
entries; the first id ever inserted becomes the entry point. -/
def HnswIndex.insert (sq : ℚ → ℚ) (idx : HnswIndex) (id : String)
    (vector : List ℚ) : HnswIndex :=
  if idx.nodes.length ≥ idx.max_elements then idx
  else
    let node : Node := { id := id, vector := vector, neighbors := [[]] }
    let idx1 :=
      if idx.nodes ≠ [] then
        let nearest := HnswIndex.brute_search sq idx vector idx.m Metric.Cosine
        let n := setLayer0 node (nearest.map (fun p => p.1))
        let nodes1 := mapInsert id n idx.nodes
        let nodes2 := nearest.foldl (pushBacklink idx.m id) nodes1
        { idx with nodes := nodes2 }
      else
        { idx with nodes := mapInsert id node idx.nodes }
    if idx1.entry.isNone then { idx1 with entry := some id } else idx1

/-- `HnswIndex::remove` (processing.rs): delete the node, drop every
back-reference from remaining layer-0 lists, reassign the entry point to the
first remaining key (or clear it). -/
def HnswIndex.remove (idx : HnswIndex) (id : String) : HnswIndex :=
  let nodes1 := mapRemove id idx.nodes
  let nodes2 := nodes1.map
    (fun p => (p.1, setLayer0 p.2 ((layer0 p.2).filter (fun nid => nid ≠ id))))
  let entry1 :=
    if idx.entry = some id then nodes2.head?.map (fun p => p.1) else idx.entry
  { idx with nodes := nodes2, entry := entry1 }

/-- One iteration step of `graph_search`'s candidate loop: pop the
best-scoring candidate into `results`, then enqueue its unvisited layer-0
neighbors.  The fuel argument models the `results.len() < ef` guard: the loop
body appends exactly one result per iteration. -/
def HnswIndex.graphLoop (sq : ℚ → ℚ) (idx : HnswIndex) (query : List ℚ)
    (metric : Metric) :
    Nat → List (ℚ × String) → List String → List (String × ℚ) →
      List (String × ℚ)
  | 0, _, _, results => results
  | Nat.succ fuel, candidates, visited, results =>
    match sortDescBy (fun c => c.1) candidates with
    | [] => results
    | cur :: rest =>
        let results1 := results ++ [(cur.2, cur.1)]
        let explored :=
          match mapLookup cur.2 idx.nodes with
          | none => (rest, visited)
          | some node =>
              (layer0 node).foldl
                (fun (acc : List (ℚ × String) × List String) nid =>
                  if nid ∈ acc.2 then acc
                  else
                    let visited1 := acc.2 ++ [nid]
                    match mapLookup nid idx.nodes with
                    | some n =>
                        (acc.1 ++ [(score sq metric query n.vector, nid)],
                         visited1)
                    | none => (acc.1, visited1))
                (rest, visited)
        HnswIndex.graphLoop sq idx query metric fuel explored.1 explored.2
          results1

/-- `HnswIndex::graph_search` (processing.rs): greedy best-first from the
entry point with `ef = top_k * 4`, then a final descending sort and
truncation. -/
def HnswIndex.graph_search (sq : ℚ → ℚ) (idx : HnswIndex) (query : List ℚ)
    (top_k : Nat) (metric : Metric) : List (String × ℚ) :=
  match idx.entry with
  | none => []
  | some entry_id =>
      let seed : List (ℚ × String) × List String :=
        match mapLookup entry_id idx.nodes with
        | some entry_node =>
            ([(score sq metric query entry_node.vector, entry_id)], [entry_id])
        | none => ([], [])
      let ef := top_k * 4
      let results := HnswIndex.graphLoop sq idx query metric ef seed.1 seed.2 []
      (sortDescBy (fun r => r.2) results).take top_k

/-- `HnswIndex::search` (processing.rs): empty graph → empty list; at most
`BRUTE_THRESHOLD` nodes → brute force; otherwise graph traversal. -/
def HnswIndex.search (sq : ℚ → ℚ) (idx : HnswIndex) (query : List ℚ)
    (top_k : Nat) (metric : Metric) : List (String × ℚ) :=
  if idx.nodes = [] then []
  else if idx.nodes.length ≤ BRUTE_THRESHOLD then
    HnswIndex.brute_search sq idx query top_k metric
  else
    HnswIndex.graph_search sq idx query top_k metric

/-- `HnswIndex::len` (processing.rs). -/
def HnswIndex.len (idx : HnswIndex) : Nat :=
  idx.nodes.length

-- ── lib.rs : errors, config, records, VecBase ───────────────────────────────

/-- `VecBaseError` (lib.rs). -/
inductive VecBaseError where
  | DimensionMismatch (expected got : Nat)
  | NotFound (id : String)
  | PluginLoadError (msg : String)
  | StorageError (msg : String)
  | ConfigError (msg : String)
deriving DecidableEq

/-- The `thiserror` display strings of `VecBaseError` (lib.rs), used by
`batch_insert` via `e.to_string()`. -/
def VecBaseError.display : VecBaseError → String
  | VecBaseError.DimensionMismatch expected got =>
      "Dimension mismatch: expected " ++ toString expected ++ ", got " ++
        toString got
  | VecBaseError.NotFound id => "Record not found: " ++ id
  | VecBaseError.PluginLoadError msg => "Plugin load error: " ++ msg
  | VecBaseError.StorageError msg => "Storage error: " ++ msg
  | VecBaseError.ConfigError msg => "Configuration error: " ++ msg

/-- `VecBaseConfig` (lib.rs). -/
structure VecBaseConfig where
  dim : Nat
  metric : String
  max_elements : Nat
  storage_path : String
deriving DecidableEq

/-- `VecRecord` (lib.rs). -/
structure VecRecord where
  id : String
  vector : List ℚ
  metadata : Option String
deriving DecidableEq

/-- `SearchResult` (lib.rs). -/
structure SearchResult where
  id : String
  score : ℚ
  metadata : Option String
deriving DecidableEq

/-- `VecBase` (lib.rs): config, record map, index, parsed metric. -/
structure VecBase where
  config : VecBaseConfig
  records : List (String × VecRecord)
  index : HnswIndex
  metric : Metric
deriving DecidableEq

/-- `VecBase::new` (lib.rs): unrecognized metric strings default to cosine. -/
def VecBase.new (config : VecBaseConfig) : VecBase :=
  let metric :=
    if config.metric = "euclidean" then Metric.Euclidean
    else if config.metric = "dot" then Metric.DotProduct
    else Metric.Cosine
  { config := config, records := [],
    index := HnswIndex.new config.dim config.max_elements, metric := metric }

/-- `VecBase::insert` (lib.rs): reject a wrong-length vector with
`DimensionMismatch` before any mutation; otherwise normalize under cosine,
store the record, and forward to the index. -/
def VecBase.insert (sq : ℚ → ℚ) (db : VecBase) (id : String)
    (vector : List ℚ) (metadata : Option String) :
    Except VecBaseError Unit × VecBase :=
  if vector.length ≠ db.config.dim then
    (Except.error (VecBaseError.DimensionMismatch db.config.dim vector.length),
     db)
  else
    let stored_vec :=
      if db.metric = Metric.Cosine then normalize sq vector else vector
    let record : VecRecord := { id := id, vector := stored_vec,
                                metadata := metadata }
    (Except.ok (),
     { db with records := mapInsert id record db.records,
               index := HnswIndex.insert sq db.index id stored_vec })

/-- `VecBase::search` (lib.rs): wrong-length query → empty list (never an
error); otherwise normalize under cosine, query the index, and join ids
against the record map for metadata. -/
def VecBase.search (sq : ℚ → ℚ) (db : VecBase) (query : List ℚ)
    (top_k : Nat) : List SearchResult :=
  if query.length ≠ db.config.dim then []
  else
    let q := if db.metric = Metric.Cosine then normalize sq query else query
    let ids := HnswIndex.search sq db.index q top_k db.metric
    ids.filterMap (fun p =>
      (mapLookup p.1 db.records).map (fun rec =>
        { id := rec.id, score := p.2, metadata := rec.metadata }))

/-- `VecBase::delete` (lib.rs): `NotFound` when the id is absent; otherwise
remove from both the record map and the index. -/
def VecBase.delete (db : VecBase) (id : String) :
    Except VecBaseError Unit × VecBase :=
  if (mapLookup id db.records).isNone then
    (Except.error (VecBaseError.NotFound id), db)
  else
    (Except.ok (),
     { db with records := mapRemove id db.records,
               index := HnswIndex.remove db.index id })

/-- `VecBase::len` (lib.rs): record-map cardinality. -/
def VecBase.len (db : VecBase) : Nat :=
  db.records.length

/-- `VecBase::get` (lib.rs). -/
def VecBase.get (db : VecBase) (id : String) : Option VecRecord :=
  mapLookup id db.records

-- ── processing.rs : batch processing ────────────────────────────────────────

/-- `BatchInsert` (processing.rs). -/
structure BatchInsert where
  id : String
  vector : List ℚ
  metadata : Option String
deriving DecidableEq

/-- `BatchResult` (processing.rs). -/
structure BatchResult where
  inserted : Nat
  failed : List (String × String)
deriving DecidableEq

/-- The loop body of `batch_insert` (processing.rs): one `match` on the
result of `VecBase::insert`. -/
def batchStep (sq : ℚ → ℚ) (acc : BatchResult × VecBase) (item : BatchInsert) :
    BatchResult × VecBase :=
  match VecBase.insert sq acc.2 item.id item.vector item.metadata with
  | (Except.ok _, db1) =>
      ({ acc.1 with inserted := acc.1.inserted + 1 }, db1)
  | (Except.error e, db1) =>
      ({ acc.1 with failed := acc.1.failed ++ [(item.id, e.display)] }, db1)

/-- `batch_insert` (processing.rs): apply `VecBase.insert` to each item in
sequence, counting successes and recording `(id, reason)` for each failure. -/
def batch_insert (sq : ℚ → ℚ) (db : VecBase) (items : List BatchInsert) :
    BatchResult × VecBase :=
  items.foldl (batchStep sq) ({ inserted := 0, failed := [] }, db)

-- ── Association-map lemmas ──────────────────────────────────────────────────

theorem mapLookup_mapInsert_self {α : Type} (k : String) (v : α)
    (l : List (String × α)) : mapLookup k (mapInsert k v l) = some v := by
  induction l with
  | nil => simp [mapInsert, mapLookup]
  | cons p ps ih =>
      by_cases hp : p.1 = k
      · simp [mapInsert, mapLookup, hp]
      · by_cases ha : ps.any (fun q => decide (q.1 = k))
        · simpa [mapInsert, mapLookup, hp, ha] using ih
        · simpa [mapInsert, mapLookup, hp, ha] using ih

theorem mapLookup_map_replace {α : Type} (k k' : String) (v : α)
    (l : List (String × α)) (h : k' ≠ k) :
    mapLookup k' (l.map (fun p => if p.1 = k then (k, v) else p)) =
      mapLookup k' l := by
  induction l with
  | nil => rfl
  | cons p ps ih =>
      by_cases hp : p.1 = k
      · have hp' : ¬ p.1 = k' := by
          rw [hp]
          exact fun e => h e.symm
        have hkk : ¬ k = k' := fun e => h e.symm
        simp [mapLookup, hp, hp', hkk, ih]
      · by_cases hp' : p.1 = k'
        · simp [mapLookup, hp, hp', h]
        · simp [mapLookup, hp, hp', ih]

theorem mapLookup_append_single_ne {α : Type} (k k' : String) (v : α)
    (l : List (String × α)) (h : k' ≠ k) :
    mapLookup k' (l ++ [(k, v)]) = mapLookup k' l := by
  induction l with
  | nil =>
      have hkk : ¬ k = k' := fun e => h e.symm
      simp [mapLookup, hkk]
  | cons p ps ih =>
      by_cases hp : p.1 = k'
      · simp [mapLookup, hp]
      · simp [mapLookup, hp, ih]

theorem mapLookup_mapInsert_ne {α : Type} (k k' : String) (v : α)
    (l : List (String × α)) (h : k' ≠ k) :
    mapLookup k' (mapInsert k v l) = mapLookup k' l := by
  unfold mapInsert
  split
  · exact mapLookup_map_replace k k' v l h
  · exact mapLookup_append_single_ne k k' v l h

theorem mem_mapInsert {α : Type} {k : String} {v : α} {l : List (String × α)}
    {p : String × α} (h : p ∈ mapInsert k v l) :
    p = (k, v) ∨ (p ∈ l ∧ p.1 ≠ k) := by
  unfold mapInsert at h
  split at h
  · rcases List.mem_map.mp h with ⟨q, hq, hfq⟩
    by_cases hqk : q.1 = k
    · left
      simpa [hqk] using hfq.symm
    · right
      simp only [hqk, if_neg] at hfq
      exact hfq ▸ ⟨hq, hqk⟩
  · rename_i hany
    rcases List.mem_append.mp h with hl | hr
    · right
      refine ⟨hl, ?_⟩
      intro hk
      exact hany (List.any_eq_true.mpr ⟨p, hl, by simpa using hk⟩)
    · left
      simpa using hr

theorem keys_mapInsert_of_mem {α : Type} {k : String} (v : α)
    {l : List (String × α)} (h : k ∈ l.map Prod.fst) :
    (mapInsert k v l).map Prod.fst = l.map Prod.fst := by
  rcases List.mem_map.mp h with ⟨q, hq, hfq⟩
  have hany : l.any (fun p => decide (p.1 = k)) = true :=
    List.any_eq_true.mpr ⟨q, hq, by simpa using hfq⟩
  unfold mapInsert
  rw [if_pos hany, List.map_map]
  refine List.map_congr_left ?_
  intro q' _
  by_cases hq' : q'.1 = k
  · simp [hq']
  · simp [hq']

theorem keys_mapInsert_of_not_mem {α : Type} {k : String} (v : α)
    {l : List (String × α)} (h : k ∉ l.map Prod.fst) :
    (mapInsert k v l).map Prod.fst = l.map Prod.fst ++ [k] := by
  have hany : l.any (fun p => decide (p.1 = k)) = false := by
    by_contra hc
    have : l.any (fun p => decide (p.1 = k)) = true := by
      revert hc
      cases l.any (fun p => decide (p.1 = k)) <;> simp
    rcases List.any_eq_true.mp this with ⟨q, hq, hk⟩
    exact h (List.mem_map.mpr ⟨q, hq, by simpa using hk⟩)
  unfold mapInsert
  rw [if_neg (by simp [hany]), List.map_append]
  simp

theorem mem_keys_mapInsert {α : Type} {x k : String} {v : α}
    {l : List (String × α)} :
    x ∈ (mapInsert k v l).map Prod.fst ↔ x ∈ l.map Prod.fst ∨ x = k := by
  by_cases h : k ∈ l.map Prod.fst
  · rw [keys_mapInsert_of_mem v h]
    constructor
    · exact fun hx => Or.inl hx
    · rintro (hx | rfl)
      · exact hx
      · exact h
  · rw [keys_mapInsert_of_not_mem v h]
    simp

theorem keys_nodup_mapInsert {α : Type} {k : String} (v : α)
    {l : List (String × α)} (h : (l.map Prod.fst).Nodup) :
    ((mapInsert k v l).map Prod.fst).Nodup := by
  by_cases hk : k ∈ l.map Prod.fst
  · rw [keys_mapInsert_of_mem v hk]
    exact h
  · rw [keys_mapInsert_of_not_mem v hk]
    refine List.Nodup.append h (List.nodup_singleton k) ?_
    intro a ha hb
    have hak : a = k := List.mem_singleton.mp hb
    exact hk (hak ▸ ha)

theorem mapLookup_mem {α : Type} {k : String} {v : α} {l : List (String × α)}
    (h : mapLookup k l = some v) : (k, v) ∈ l := by
  induction l with
  | nil => simp [mapLookup] at h
  | cons p ps ih =>
      obtain ⟨p1, p2⟩ := p
      by_cases hp : p1 = k
      · simp only [mapLookup, hp, if_pos] at h
        cases h
        subst hp
        exact List.mem_cons_self _ _
      · simp only [mapLookup, if_neg hp] at h
        exact List.mem_cons_of_mem _ (ih h)

theorem mapLookup_isSome_iff {α : Type} {k : String} {l : List (String × α)} :
    (mapLookup k l).isSome ↔ k ∈ l.map Prod.fst := by
  induction l with
  | nil => simp [mapLookup]
  | cons p ps ih =>
      by_cases hp : p.1 = k
      · simp [mapLookup, hp]
      · simp only [mapLookup, if_neg hp, List.map_cons, List.mem_cons]
        rw [ih]
        constructor
        · exact fun h => Or.inr h
        · rintro (rfl | h)
          · exact absurd rfl hp
          · exact h

theorem mem_mapRemove {α : Type} {k : String} {l : List (String × α)}
    {p : String × α} : p ∈ mapRemove k l ↔ p ∈ l ∧ p.1 ≠ k := by
  simp [mapRemove, List.mem_filter]

theorem keys_mapRemove {α : Type} (k : String) (l : List (String × α)) :
    (mapRemove k l).map Prod.fst = (l.map Prod.fst).filter (fun x => x ≠ k) := by
  induction l with
  | nil => simp [mapRemove]
  | cons p ps ih =>
      by_cases hp : p.1 = k
      · simpa [mapRemove, List.filter, hp] using ih
      · simpa [mapRemove, List.filter, hp] using ih

-- ── Key sets ────────────────────────────────────────────────────────────────

/-- The ids held as nodes in the graph. -/
def nodeKeys (idx : HnswIndex) : List String :=
  idx.nodes.map Prod.fst

/-- The ids held in the record map. -/
def recordKeys (db : VecBase) : List String :=
  db.records.map Prod.fst

theorem layer0_setLayer0 (n : Node) (l : List String) :
    layer0 (setLayer0 n l) = l := rfl

-- ── Generic foldl preservation ──────────────────────────────────────────────

theorem foldl_pres {α β : Type} (P : β → Prop) (f : β → α → β) :
    ∀ (l : List α) (b : β), (∀ b a, a ∈ l → P b → P (f b a)) → P b →
      P (l.foldl f b) := by
  intro l
  induction l with
  | nil => intro b _ hb; exact hb
  | cons a as ih =>
      intro b hf hb
      rw [List.foldl_cons]
      exact ih (f b a) (fun b' a' ha' => hf b' a' (List.mem_cons_of_mem _ ha'))
        (hf b a (List.mem_cons_self _ _) hb)

-- ── pushBacklink lemmas ─────────────────────────────────────────────────────

theorem pushBacklink_keys (m : Nat) (id : String) (acc : List (String × Node))
    (p : String × ℚ) :
    (pushBacklink m id acc p).map Prod.fst = acc.map Prod.fst := by
  unfold pushBacklink
  cases hl : mapLookup p.1 acc with
  | none => rfl
  | some nb =>
      dsimp only
      split
      · refine keys_mapInsert_of_mem _ (mapLookup_isSome_iff.mp ?_)
        rw [hl]
        rfl
      · rfl

theorem foldl_pushBacklink_keys (m : Nat) (id : String) :
    ∀ (rest : List (String × ℚ)) (acc : List (String × Node)),
      (rest.foldl (pushBacklink m id) acc).map Prod.fst = acc.map Prod.fst := by
  intro rest
  induction rest with
  | nil => intro acc; rfl
  | cons p ps ih =>
      intro acc
      rw [List.foldl_cons, ih, pushBacklink_keys]

theorem pushBacklink_mem {m : Nat} {id : String} {acc : List (String × Node)}
    {p : String × ℚ} {q : String × Node} (hq : q ∈ pushBacklink m id acc p) :
    q ∈ acc ∨ ∃ nb, (p.1, nb) ∈ acc ∧ (layer0 nb).length < m ∧
      q = (p.1, setLayer0 nb (layer0 nb ++ [id])) := by
  unfold pushBacklink at hq
  cases hl : mapLookup p.1 acc with
  | none =>
      rw [hl] at hq
      exact Or.inl hq
  | some nb =>
      rw [hl] at hq
      dsimp only at hq
      split at hq
      · rcases mem_mapInsert hq with hq1 | hq2
        · exact Or.inr ⟨nb, mapLookup_mem hl, by assumption, hq1⟩
        · exact Or.inl hq2.1
      · exact Or.inl hq

/-- Back-link pushes preserve "key equals node id" and the `≤ m` length bound
on every layer-0 list. -/
theorem foldl_pushBacklink_wf (m : Nat) (id : String)
    (rest : List (String × ℚ)) (acc : List (String × Node))
    (hacc : ∀ q ∈ acc, q.2.id = q.1 ∧ (layer0 q.2).length ≤ m) :
    ∀ q ∈ rest.foldl (pushBacklink m id) acc,
      q.2.id = q.1 ∧ (layer0 q.2).length ≤ m := by
  refine foldl_pres (fun acc' => ∀ q ∈ acc', q.2.id = q.1 ∧ (layer0 q.2).length ≤ m)
    (pushBacklink m id) rest acc ?_ hacc
  intro b a _ hb q hq
  rcases pushBacklink_mem hq with hq1 | ⟨nb, hnb, hlen, rfl⟩
  · exact hb q hq1
  · refine ⟨(hb _ hnb).1, ?_⟩
    rw [layer0_setLayer0, List.length_append, List.length_singleton]
    omega

theorem foldl_pushBacklink_lookup_ne (m : Nat) (id k : String) :
    ∀ (rest : List (String × ℚ)) (acc : List (String × Node)),
      (∀ p ∈ rest, p.1 ≠ k) →
      mapLookup k (rest.foldl (pushBacklink m id) acc) = mapLookup k acc := by
  intro rest
  induction rest with
  | nil => intro acc _; rfl
  | cons p ps ih =>
      intro acc hne
      rw [List.foldl_cons,
        ih _ (fun p' hp' => hne p' (List.mem_cons_of_mem _ hp'))]
      unfold pushBacklink
      cases hl : mapLookup p.1 acc with
      | none => rfl
      | some nb =>
          dsimp only
          split
          · exact mapLookup_mapInsert_ne _ _ _ _
              (fun e => hne p (List.mem_cons_self _ _) (e ▸ rfl))
          · rfl

-- ── brute_search lemmas ─────────────────────────────────────────────────────

theorem brute_search_length_le (sq : ℚ → ℚ) (idx : HnswIndex) (q : List ℚ)
    (k : Nat) (metric : Metric) :
    (HnswIndex.brute_search sq idx q k metric).length ≤ k := by
  unfold HnswIndex.brute_search
  exact List.length_take_le _ _

theorem mem_brute_search {sq : ℚ → ℚ} {idx : HnswIndex} {q : List ℚ} {k : Nat}
    {metric : Metric} {r : String × ℚ}
    (h : r ∈ HnswIndex.brute_search sq idx q k metric) :
    ∃ p ∈ idx.nodes, r = (p.2.id, score sq metric q p.2.vector) := by
  unfold HnswIndex.brute_search at h
  have h1 := List.take_subset _ _ h
  have h2 := (sortDescBy_perm (fun r : String × ℚ => r.2) _).mem_iff.mp h1
  rcases List.mem_map.mp h2 with ⟨p, hp, hfp⟩
  exact ⟨p, hp, hfp.symm⟩

theorem brute_search_ids_sub {sq : ℚ → ℚ} {idx : HnswIndex} {q : List ℚ}
    {k : Nat} {metric : Metric}
    (hkid : ∀ p ∈ idx.nodes, p.2.id = p.1) :
    ∀ r ∈ HnswIndex.brute_search sq idx q k metric, r.1 ∈ nodeKeys idx := by
  intro r hr
  rcases mem_brute_search hr with ⟨p, hp, rfl⟩
  exact List.mem_map.mpr ⟨p, hp, (hkid p hp).symm⟩

theorem brute_search_ids_nodup {sq : ℚ → ℚ} {idx : HnswIndex} {q : List ℚ}
    {k : Nat} {metric : Metric}
    (hkid : ∀ p ∈ idx.nodes, p.2.id = p.1) (hnd : (nodeKeys idx).Nodup) :
    ((HnswIndex.brute_search sq idx q k metric).map Prod.fst).Nodup := by
  unfold HnswIndex.brute_search
  rw [List.map_take]
  refine List.Nodup.sublist (List.take_sublist _ _) ?_
  refine List.Perm.nodup
    (((sortDescBy_perm (fun r : String × ℚ => r.2) _).map Prod.fst).symm) ?_
  rw [List.map_map]
  rw [show (Prod.fst ∘ fun p : String × Node => (p.2.id, score sq metric q p.2.vector))
      = fun p : String × Node => p.2.id from rfl]
  rw [List.map_congr_left hkid]
  exact hnd

theorem brute_search_complete {sq : ℚ → ℚ} {idx : HnswIndex} {q : List ℚ}
    {k : Nat} {metric : Metric}
    (hkid : ∀ p ∈ idx.nodes, p.2.id = p.1) (hk : idx.nodes.length ≤ k) :
    ∀ x ∈ nodeKeys idx,
      x ∈ (HnswIndex.brute_search sq idx q k metric).map Prod.fst := by
  intro x hx
  unfold HnswIndex.brute_search
  have hlen : (sortDescBy (fun r : String × ℚ => r.2)
      (idx.nodes.map (fun p => (p.2.id, score sq metric q p.2.vector)))).length ≤ k := by
    rw [(sortDescBy_perm (fun r : String × ℚ => r.2) _).length_eq]
    rw [List.length_map]
    exact hk
  rw [List.take_of_length_le hlen]
  rcases List.mem_map.mp hx with ⟨p, hp, rfl⟩
  refine List.mem_map.mpr ⟨(p.2.id, score sq metric q p.2.vector), ?_, hkid p hp⟩
  exact ((sortDescBy_perm (fun r : String × ℚ => r.2) _).mem_iff).mpr
    (List.mem_map.mpr ⟨p, hp, rfl⟩)

-- ── Index well-formedness ───────────────────────────────────────────────────

/-- Structural well-formedness of an index state: `m` is the constant 16,
keys are unique and agree with the stored node ids, and every layer-0 list is
bounded by `m`. -/
structure HIdxWF (idx : HnswIndex) : Prop where
  m_eq : idx.m = 16
  keys_nodup : (nodeKeys idx).Nodup
  key_id : ∀ p ∈ idx.nodes, p.2.id = p.1
  bound : ∀ p ∈ idx.nodes, (layer0 p.2).length ≤ idx.m

theorem HIdxWF_new (dim max_elements : Nat) :
    HIdxWF (HnswIndex.new dim max_elements) := by
  refine ⟨rfl, ?_, ?_, ?_⟩ <;> simp [HnswIndex.new, nodeKeys]

theorem HIdxWF_insert (sq : ℚ → ℚ) (idx : HnswIndex) (id : String)
    (v : List ℚ) (h : HIdxWF idx) : HIdxWF (HnswIndex.insert sq idx id v) := by
  unfold HnswIndex.insert
  dsimp only
  split
  · exact h
  · split
    · -- non-empty graph: wire up the new node, then back-link
      have hacc : ∀ q ∈ mapInsert id
          (setLayer0 { id := id, vector := v, neighbors := [[]] }
            ((HnswIndex.brute_search sq idx v idx.m Metric.Cosine).map
              (fun p => p.1))) idx.nodes,
          q.2.id = q.1 ∧ (layer0 q.2).length ≤ idx.m := by
        intro q hq
        rcases mem_mapInsert hq with rfl | ⟨hmem, _⟩
        · refine ⟨rfl, ?_⟩
          rw [layer0_setLayer0, List.length_map]
          exact brute_search_length_le sq idx v idx.m Metric.Cosine
        · exact ⟨h.key_id q hmem, h.bound q hmem⟩
      have hwf := foldl_pushBacklink_wf idx.m id
        (HnswIndex.brute_search sq idx v idx.m Metric.Cosine) _ hacc
      have hkeys : ((HnswIndex.brute_search sq idx v idx.m Metric.Cosine).foldl
          (pushBacklink idx.m id)
          (mapInsert id
            (setLayer0 { id := id, vector := v, neighbors := [[]] }
              ((HnswIndex.brute_search sq idx v idx.m Metric.Cosine).map
                (fun p => p.1))) idx.nodes)).map Prod.fst =
          (mapInsert id
            (setLayer0 { id := id, vector := v, neighbors := [[]] }
              ((HnswIndex.brute_search sq idx v idx.m Metric.Cosine).map
                (fun p => p.1))) idx.nodes).map Prod.fst :=
        foldl_pushBacklink_keys idx.m id _ _
      split
      · exact ⟨h.m_eq, by
          show ((_ : List (String × Node)).map Prod.fst).Nodup
          rw [hkeys]
          exact keys_nodup_mapInsert _ h.keys_nodup,
          fun p hp => (hwf p hp).1, fun p hp => (hwf p hp).2⟩
      · exact ⟨h.m_eq, by
          show ((_ : List (String × Node)).map Prod.fst).Nodup
          rw [hkeys]
          exact keys_nodup_mapInsert _ h.keys_nodup,
          fun p hp => (hwf p hp).1, fun p hp => (hwf p hp).2⟩
    · -- empty graph: a single fresh node with an empty neighbor list
      have hmem : ∀ q ∈ mapInsert id
          { id := id, vector := v, neighbors := [[]] } idx.nodes,
          q.2.id = q.1 ∧ (layer0 q.2).length ≤ idx.m := by
        intro q hq
        rcases mem_mapInsert hq with rfl | ⟨hmemq, _⟩
        · exact ⟨rfl, by simp [layer0]⟩
        · exact ⟨h.key_id q hmemq, h.bound q hmemq⟩
      split
      · exact ⟨h.m_eq, keys_nodup_mapInsert _ h.keys_nodup,
          fun p hp => (hmem p hp).1, fun p hp => (hmem p hp).2⟩
      · exact ⟨h.m_eq, keys_nodup_mapInsert _ h.keys_nodup,
          fun p hp => (hmem p hp).1, fun p hp => (hmem p hp).2⟩

theorem hnswRemove_keys (idx : HnswIndex) (id : String) :
    nodeKeys (HnswIndex.remove idx id) =
      (nodeKeys idx).filter (fun x => x ≠ id) := by
  unfold HnswIndex.remove nodeKeys
  dsimp only
  rw [List.map_map]
  rw [show (Prod.fst ∘ fun p : String × Node =>
      (p.1, setLayer0 p.2 ((layer0 p.2).filter (fun nid => nid ≠ id))))
      = Prod.fst from rfl]
  exact keys_mapRemove id idx.nodes

theorem mem_hnswRemove_nodes {idx : HnswIndex} {id : String}
    {q : String × Node} (hq : q ∈ (HnswIndex.remove idx id).nodes) :
    ∃ p ∈ idx.nodes, p.1 ≠ id ∧
      q = (p.1, setLayer0 p.2 ((layer0 p.2).filter (fun nid => nid ≠ id))) := by
  unfold HnswIndex.remove at hq
  dsimp only at hq
  rcases List.mem_map.mp hq with ⟨p, hp, hfp⟩
  rcases mem_mapRemove.mp hp with ⟨hpl, hpne⟩
  exact ⟨p, hpl, hpne, hfp.symm⟩

theorem HIdxWF_remove (idx : HnswIndex) (id : String) (h : HIdxWF idx) :
    HIdxWF (HnswIndex.remove idx id) := by
  refine ⟨h.m_eq, ?_, ?_, ?_⟩
  · rw [show nodeKeys (HnswIndex.remove idx id) =
        (nodeKeys idx).filter (fun x => x ≠ id) from hnswRemove_keys idx id]
    exact List.Nodup.filter _ h.keys_nodup
  · intro q hq
    rcases mem_hnswRemove_nodes hq with ⟨p, hp, _, rfl⟩
    exact h.key_id p hp
  · intro q hq
    rcases mem_hnswRemove_nodes hq with ⟨p, hp, _, rfl⟩
    show ((layer0 p.2).filter (fun nid => nid ≠ id)).length ≤ idx.m
    exact le_trans (List.length_filter_le _ _) (h.bound p hp)

theorem hnswInsert_keys_subset (sq : ℚ → ℚ) (idx : HnswIndex) (id : String)
    (v : List ℚ) :
    ∀ x ∈ nodeKeys (HnswIndex.insert sq idx id v),
      x ∈ nodeKeys idx ∨ x = id := by
  intro x hx
  unfold HnswIndex.insert at hx
  dsimp only at hx
  split at hx
  · exact Or.inl hx
  · split at hx
    · split at hx <;>
        (unfold nodeKeys at hx
         rw [foldl_pushBacklink_keys] at hx
         exact mem_keys_mapInsert.mp hx)
    · split at hx <;> exact mem_keys_mapInsert.mp hx

-- ── Search-result lemmas ────────────────────────────────────────────────────

theorem graphLoop_ids_sub (sq : ℚ → ℚ) (idx : HnswIndex) (query : List ℚ)
    (metric : Metric) :
    ∀ (fuel : Nat) (candidates : List (ℚ × String)) (visited : List String)
      (results : List (String × ℚ)),
      (∀ c ∈ candidates, c.2 ∈ nodeKeys idx) →
      (∀ r ∈ results, r.1 ∈ nodeKeys idx) →
      ∀ r ∈ HnswIndex.graphLoop sq idx query metric fuel candidates visited
        results, r.1 ∈ nodeKeys idx := by
  intro fuel
  induction fuel with
  | zero =>
      intro candidates visited results _ hr r hrr
      exact hr r hrr
  | succ fuel ih =>
      intro candidates visited results hc hr r hrr
      rw [HnswIndex.graphLoop] at hrr
      cases hs : sortDescBy (fun c : ℚ × String => c.1) candidates with
      | nil =>
          rw [hs] at hrr
          exact hr r hrr
      | cons cur rest =>
          rw [hs] at hrr
          dsimp only at hrr
          have hcur : cur.2 ∈ nodeKeys idx := by
            refine hc cur ?_
            have : cur ∈ sortDescBy (fun c : ℚ × String => c.1) candidates := by
              rw [hs]
              exact List.mem_cons_self _ _
            exact (sortDescBy_perm (fun c : ℚ × String => c.1)
              candidates).mem_iff.mp this
          have hrest : ∀ c ∈ rest, c.2 ∈ nodeKeys idx := by
            intro c hcr
            refine hc c ?_
            have : c ∈ sortDescBy (fun c : ℚ × String => c.1) candidates := by
              rw [hs]
              exact List.mem_cons_of_mem _ hcr
            exact (sortDescBy_perm (fun c : ℚ × String => c.1)
              candidates).mem_iff.mp this
          refine ih _ _ _ ?_ ?_ r hrr
          · -- the explored candidate list still draws ids from the node keys
            cases hlook : mapLookup cur.2 idx.nodes with
            | none => exact hrest
            | some node =>
                intro c hcc
                refine foldl_pres
                  (fun acc : List (ℚ × String) × List String =>
                    ∀ c' ∈ acc.1, c'.2 ∈ nodeKeys idx)
                  _ (layer0 node) (rest, visited) ?_ hrest c hcc
                intro b a _ hb c' hc'
                by_cases hv : a ∈ b.2
                · rw [if_pos hv] at hc'
                  exact hb c' hc'
                · rw [if_neg hv] at hc'
                  cases hn : mapLookup a idx.nodes with
                  | none =>
                      rw [hn] at hc'
                      exact hb c' hc'
                  | some n =>
                      rw [hn] at hc'
                      dsimp only at hc'
                      rcases List.mem_append.mp hc' with hbb | hone
                      · exact hb c' hbb
                      · have : c' = (score sq metric query n.vector, a) :=
                          List.mem_singleton.mp hone
                        subst this
                        refine mapLookup_isSome_iff.mp ?_
                        rw [hn]
                        rfl
          · -- results extended with the popped candidate
            intro r' hr'
            rcases List.mem_append.mp hr' with hold | hone
            · exact hr r' hold
            · have : r' = (cur.2, cur.1) := List.mem_singleton.mp hone
              subst this
              exact hcur

theorem hnsw_search_ids_sub {sq : ℚ → ℚ} {idx : HnswIndex} {q : List ℚ}
    {k : Nat} {metric : Metric}
    (hkid : ∀ p ∈ idx.nodes, p.2.id = p.1) :
    ∀ r ∈ HnswIndex.search sq idx q k metric, r.1 ∈ nodeKeys idx := by
  intro r hr
  unfold HnswIndex.search at hr
  split at hr
  · simp at hr
  · split at hr
    · exact brute_search_ids_sub hkid r hr
    · unfold HnswIndex.graph_search at hr
      cases he : idx.entry with
      | none =>
          rw [he] at hr
          simp at hr
      | some entry_id =>
          rw [he] at hr
          dsimp only at hr
          have hr1 := List.take_subset _ _ hr
          have hr2 := (sortDescBy_perm (fun r : String × ℚ => r.2)
            _).mem_iff.mp hr1
          revert hr2
          refine graphLoop_ids_sub sq idx q metric _ _ _ _ ?_ ?_ r
          · cases hlook : mapLookup entry_id idx.nodes with
            | none => simp
            | some entry_node =>
                dsimp only
                intro c hcc
                have : c = (score sq metric q entry_node.vector, entry_id) :=
                  List.mem_singleton.mp hcc
                subst this
                refine mapLookup_isSome_iff.mp ?_
                rw [hlook]
                rfl
          · intro r' hr'
            simp at hr'

theorem hnsw_search_length_le (sq : ℚ → ℚ) (idx : HnswIndex) (q : List ℚ)
    (k : Nat) (metric : Metric) :
    (HnswIndex.search sq idx q k metric).length ≤ k := by
  unfold HnswIndex.search
  split
  · simp
  · split
    · exact brute_search_length_le sq idx q k metric
    · unfold HnswIndex.graph_search
      cases idx.entry with
      | none => simp
      | some entry_id => exact List.length_take_le _ _

theorem hnsw_search_pairwise (sq : ℚ → ℚ) (idx : HnswIndex) (q : List ℚ)
    (k : Nat) (metric : Metric) :
    List.Pairwise (fun a b : String × ℚ => b.2 ≤ a.2)
      (HnswIndex.search sq idx q k metric) := by
  unfold HnswIndex.search
  split
  · simp
  · split
    · unfold HnswIndex.brute_search
      exact List.Pairwise.sublist (List.take_sublist _ _)
        (sortDescBy_pairwise _ _)
    · unfold HnswIndex.graph_search
      cases idx.entry with
      | none => simp
      | some entry_id =>
          exact List.Pairwise.sublist (List.take_sublist _ _)
            (sortDescBy_pairwise _ _)

-- ── Neighbor-list neatness invariant ────────────────────────────────────────

theorem nodup_append_singleton {α : Type} {l : List α} {a : α}
    (h : l.Nodup) (ha : a ∉ l) : (l ++ [a]).Nodup := by
  refine List.Nodup.append h (List.nodup_singleton a) ?_
  intro x hx hxa
  have : x = a := List.mem_singleton.mp hxa
  exact ha (this ▸ hx)

theorem not_mem_append_singleton {α : Type} {x a : α} {l : List α}
    (h1 : x ∉ l) (h2 : x ≠ a) : x ∉ l ++ [a] := by
  intro hx
  rcases List.mem_append.mp hx with hl | hr
  · exact h1 hl
  · exact h2 (List.mem_singleton.mp hr)

theorem pushBacklink_lookup_ne {m : Nat} {id k : String}
    {acc : List (String × Node)} {p : String × ℚ} (h : k ≠ p.1) :
    mapLookup k (pushBacklink m id acc p) = mapLookup k acc := by
  unfold pushBacklink
  cases hl : mapLookup p.1 acc with
  | none => rfl
  | some nb =>
      dsimp only
      split
      · exact mapLookup_mapInsert_ne _ _ _ _ h
      · rfl

theorem pushBacklink_mem_lookup {m : Nat} {id : String}
    {acc : List (String × Node)} {p : String × ℚ} {q : String × Node}
    (hq : q ∈ pushBacklink m id acc p) :
    q ∈ acc ∨ ∃ nb, mapLookup p.1 acc = some nb ∧ (layer0 nb).length < m ∧
      q = (p.1, setLayer0 nb (layer0 nb ++ [id])) := by
  unfold pushBacklink at hq
  cases hl : mapLookup p.1 acc with
  | none =>
      rw [hl] at hq
      exact Or.inl hq
  | some nb =>
      rw [hl] at hq
      dsimp only at hq
      split at hq
      · rcases mem_mapInsert hq with hq1 | hq2
        · exact Or.inr ⟨nb, rfl, by assumption, hq1⟩
        · exact Or.inl hq2.1
      · exact Or.inl hq

/-- Per-node neatness relative to the bound `m` and an allowed key set:
key = node id, no duplicate neighbors, no self-reference, bounded length,
neighbors drawn from the allowed keys. -/
def NeatPair (m : Nat) (keys : List String) (q : String × Node) : Prop :=
  q.2.id = q.1 ∧ (layer0 q.2).Nodup ∧ q.2.id ∉ layer0 q.2 ∧
    (layer0 q.2).length ≤ m ∧ ∀ x ∈ layer0 q.2, x ∈ keys

/-- Pushing best-effort back-links for a fresh id `id ∉ keys` preserves
neatness, provided the pushed-to keys are distinct, lie in `keys`, and their
current lists do not contain `id` yet. -/
theorem foldl_pushBacklink_neat (m : Nat) (id : String) (keys : List String)
    (hid : id ∉ keys) :
    ∀ (rest : List (String × ℚ)) (acc : List (String × Node)),
      (rest.map Prod.fst).Nodup →
      (∀ p ∈ rest, p.1 ∈ keys) →
      (∀ q ∈ acc, NeatPair m (id :: keys) q) →
      (∀ p ∈ rest, ∀ nb, mapLookup p.1 acc = some nb → id ∉ layer0 nb) →
      ∀ q ∈ rest.foldl (pushBacklink m id) acc, NeatPair m (id :: keys) q := by
  intro rest
  induction rest with
  | nil =>
      intro acc _ _ hacc _ q hq
      exact hacc q hq
  | cons p ps ih =>
      intro acc hnd hkeys hacc hno
      rw [List.foldl_cons]
      have hpk : p.1 ∈ keys := hkeys p (List.mem_cons_self _ _)
      have hpid : p.1 ≠ id := fun e => hid (e ▸ hpk)
      refine ih _ ?_ ?_ ?_ ?_
      · rw [List.map_cons] at hnd
        exact hnd.of_cons
      · intro p' hp'
        exact hkeys p' (List.mem_cons_of_mem _ hp')
      · -- every member of the one-step result is still neat
        intro q hq
        rcases pushBacklink_mem_lookup hq with hq1 | ⟨nb, hlook, hlen, rfl⟩
        · exact hacc q hq1
        · have hnbP : NeatPair m (id :: keys) (p.1, nb) :=
            hacc (p.1, nb) (mapLookup_mem hlook)
          have hnoid : id ∉ layer0 nb :=
            hno p (List.mem_cons_self _ _) nb hlook
          rcases hnbP with ⟨hid1, hnd1, hself1, hlen1, hcl1⟩
          refine ⟨hid1, ?_, ?_, ?_, ?_⟩
          · rw [layer0_setLayer0]
            exact nodup_append_singleton hnd1 hnoid
          · rw [layer0_setLayer0]
            dsimp only at hid1 ⊢
            refine not_mem_append_singleton hself1 ?_
            show nb.id ≠ id
            rw [hid1]
            exact hpid
          · rw [layer0_setLayer0, List.length_append, List.length_singleton]
            omega
          · rw [layer0_setLayer0]
            intro x hx
            rcases List.mem_append.mp hx with hl | hr
            · exact hcl1 x hl
            · have : x = id := List.mem_singleton.mp hr
              rw [this]
              exact List.mem_cons_self _ _
      · -- lists reachable from the remaining keys still avoid `id`
        intro p' hp' nb' hlook'
        have hne : p'.1 ≠ p.1 := by
          intro e
          rw [List.map_cons] at hnd
          rcases List.nodup_cons.mp hnd with ⟨hnotin, _⟩
          exact hnotin (e ▸ List.mem_map.mpr ⟨p', hp', rfl⟩)
        rw [pushBacklink_lookup_ne hne] at hlook'
        exact hno p' (List.mem_cons_of_mem _ hp') nb' hlook'

/-- Full neatness of an index state. -/
structure HIdxNeat (idx : HnswIndex) : Prop where
  wf : HIdxWF idx
  nodup0 : ∀ p ∈ idx.nodes, (layer0 p.2).Nodup
  noself : ∀ p ∈ idx.nodes, p.2.id ∉ layer0 p.2
  closed : ∀ p ∈ idx.nodes, ∀ x ∈ layer0 p.2, x ∈ nodeKeys idx

theorem HIdxNeat_new (dim max_elements : Nat) :
    HIdxNeat (HnswIndex.new dim max_elements) := by
  refine ⟨HIdxWF_new dim max_elements, ?_, ?_, ?_⟩ <;>
    simp [HnswIndex.new]

theorem HIdxNeat_remove (idx : HnswIndex) (id : String) (h : HIdxNeat idx) :
    HIdxNeat (HnswIndex.remove idx id) := by
  refine ⟨HIdxWF_remove idx id h.wf, ?_, ?_, ?_⟩
  · intro q hq
    rcases mem_hnswRemove_nodes hq with ⟨p, hp, _, rfl⟩
    show ((layer0 p.2).filter (fun nid => nid ≠ id)).Nodup
    exact List.Nodup.filter _ (h.nodup0 p hp)
  · intro q hq
    rcases mem_hnswRemove_nodes hq with ⟨p, hp, _, rfl⟩
    show p.2.id ∉ (layer0 p.2).filter (fun nid => nid ≠ id)
    intro hmem
    exact h.noself p hp (List.mem_of_mem_filter hmem)
  · intro q hq
    rcases mem_hnswRemove_nodes hq with ⟨p, hp, _, rfl⟩
    intro x hx
    have hx' : x ∈ (layer0 p.2).filter (fun nid => nid ≠ id) := hx
    have hxl : x ∈ layer0 p.2 := List.mem_of_mem_filter hx'
    have hxne : x ≠ id := by
      have := List.of_mem_filter hx'
      simpa using this
    rw [hnswRemove_keys]
    refine List.mem_filter.mpr ⟨h.closed p hp x hxl, by simpa using hxne⟩

theorem HIdxNeat_insert_fresh (sq : ℚ → ℚ) (idx : HnswIndex) (id : String)
    (v : List ℚ) (h : HIdxNeat idx) (hid : id ∉ nodeKeys idx) :
    HIdxNeat (HnswIndex.insert sq idx id v) := by
  unfold HnswIndex.insert
  dsimp only
  split
  · exact h
  · split
    · -- non-empty graph
      have hnd : ((HnswIndex.brute_search sq idx v idx.m Metric.Cosine).map
          Prod.fst).Nodup :=
        brute_search_ids_nodup h.wf.key_id h.wf.keys_nodup
      have hkeys : ∀ p ∈ HnswIndex.brute_search sq idx v idx.m Metric.Cosine,
          p.1 ∈ nodeKeys idx :=
        brute_search_ids_sub h.wf.key_id
      have hacc : ∀ q ∈ mapInsert id
          (setLayer0 { id := id, vector := v, neighbors := [[]] }
            ((HnswIndex.brute_search sq idx v idx.m Metric.Cosine).map
              (fun p => p.1))) idx.nodes,
          NeatPair idx.m (id :: nodeKeys idx) q := by
        intro q hq
        rcases mem_mapInsert hq with rfl | ⟨hmem, _⟩
        · refine ⟨rfl, ?_, ?_, ?_, ?_⟩
          · rw [layer0_setLayer0]
            exact hnd
          · rw [layer0_setLayer0]
            show id ∉ _
            intro hin
            rcases List.mem_map.mp hin with ⟨p, hp, hfp⟩
            exact hid (hfp ▸ hkeys p hp)
          · rw [layer0_setLayer0, List.length_map]
            exact brute_search_length_le sq idx v idx.m Metric.Cosine
          · rw [layer0_setLayer0]
            intro x hx
            rcases List.mem_map.mp hx with ⟨p, hp, hfp⟩
            exact List.mem_cons_of_mem _ (hfp ▸ hkeys p hp)
        · exact ⟨h.wf.key_id q hmem, h.nodup0 q hmem, h.noself q hmem,
            h.wf.bound q hmem,
            fun x hx => List.mem_cons_of_mem _ (h.closed q hmem x hx)⟩
      have hno : ∀ p ∈ HnswIndex.brute_search sq idx v idx.m Metric.Cosine,
          ∀ nb, mapLookup p.1 (mapInsert id
            (setLayer0 { id := id, vector := v, neighbors := [[]] }
              ((HnswIndex.brute_search sq idx v idx.m Metric.Cosine).map
                (fun p => p.1))) idx.nodes) = some nb → id ∉ layer0 nb := by
        intro p hp nb hlook
        have hpne : p.1 ≠ id := fun e => hid (e ▸ hkeys p hp)
        rw [mapLookup_mapInsert_ne _ _ _ _ hpne] at hlook
        have hmem := mapLookup_mem hlook
        intro hin
        exact hid (h.closed (p.1, nb) hmem id hin)
      have hneat := foldl_pushBacklink_neat idx.m id (nodeKeys idx) hid
        (HnswIndex.brute_search sq idx v idx.m Metric.Cosine) _ hnd hkeys hacc
        hno
      have hkeys2 : ((HnswIndex.brute_search sq idx v idx.m
          Metric.Cosine).foldl (pushBacklink idx.m id)
          (mapInsert id
            (setLayer0 { id := id, vector := v, neighbors := [[]] }
              ((HnswIndex.brute_search sq idx v idx.m Metric.Cosine).map
                (fun p => p.1))) idx.nodes)).map Prod.fst =
          (mapInsert id
            (setLayer0 { id := id, vector := v, neighbors := [[]] }
              ((HnswIndex.brute_search sq idx v idx.m Metric.Cosine).map
                (fun p => p.1))) idx.nodes).map Prod.fst :=
        foldl_pushBacklink_keys idx.m id _ _
      have hfields :
          ∀ entry', HIdxNeat
            { dim := idx.dim, max_elements := idx.max_elements,
              nodes := (HnswIndex.brute_search sq idx v idx.m
                Metric.Cosine).foldl (pushBacklink idx.m id)
                (mapInsert id
                  (setLayer0 { id := id, vector := v, neighbors := [[]] }
                    ((HnswIndex.brute_search sq idx v idx.m Metric.Cosine).map
                      (fun p => p.1))) idx.nodes),
              m := idx.m, entry := entry' } := by
        intro entry'
        refine ⟨⟨h.wf.m_eq, ?_, ?_, ?_⟩, ?_, ?_, ?_⟩
        · show ((_ : List (String × Node)).map Prod.fst).Nodup
          rw [hkeys2]
          exact keys_nodup_mapInsert _ h.wf.keys_nodup
        · exact fun p hp => (hneat p hp).1
        · exact fun p hp => (hneat p hp).2.2.2.1
        · exact fun p hp => (hneat p hp).2.1
        · exact fun p hp => (hneat p hp).2.2.1
        · intro p hp x hx
          have hx2 := (hneat p hp).2.2.2.2 x hx
          show x ∈ (_ : List (String × Node)).map Prod.fst
          rw [hkeys2, mem_keys_mapInsert]
          rcases List.mem_cons.mp hx2 with rfl | hxk
          · exact Or.inr rfl
          · exact Or.inl hxk
      split
      · exact hfields _
      · exact hfields _
    · -- empty graph
      rename_i hne
      have heq : idx.nodes = [] := by
        by_contra hcon
        exact hne hcon
      have hfields :
          ∀ entry', HIdxNeat
            { dim := idx.dim, max_elements := idx.max_elements,
              nodes := mapInsert id { id := id, vector := v, neighbors := [[]] }
                idx.nodes,
              m := idx.m, entry := entry' } := by
        intro entry'
        rw [heq]
        refine ⟨⟨h.wf.m_eq, ?_, ?_, ?_⟩, ?_, ?_, ?_⟩ <;>
          simp [mapInsert, layer0, nodeKeys]
      split
      · exact hfields _
      · exact hfields _

-- ── Reachable index states ──────────────────────────────────────────────────

/-- Index states reachable by any sequence of `insert` and `remove` calls
from `HnswIndex::new` (re-inserting a present id allowed). -/
inductive HnswReach : HnswIndex → Prop where
  | new : ∀ dim max_elements, HnswReach (HnswIndex.new dim max_elements)
  | insert : ∀ sq idx id v, HnswReach idx →
      HnswReach (HnswIndex.insert sq idx id v)
  | remove : ∀ idx id, HnswReach idx → HnswReach (HnswIndex.remove idx id)

/-- Index states reachable when every insert uses an id not currently
present in the graph. -/
inductive HnswReachFresh : HnswIndex → Prop where
  | new : ∀ dim max_elements, HnswReachFresh (HnswIndex.new dim max_elements)
  | insert : ∀ sq idx id v, HnswReachFresh idx → id ∉ nodeKeys idx →
      HnswReachFresh (HnswIndex.insert sq idx id v)
  | remove : ∀ idx id, HnswReachFresh idx →
      HnswReachFresh (HnswIndex.remove idx id)

theorem HnswReach_wf {idx : HnswIndex} (h : HnswReach idx) : HIdxWF idx := by
  induction h with
  | new dim max_elements => exact HIdxWF_new dim max_elements
  | insert sq idx id v _ ih => exact HIdxWF_insert sq idx id v ih
  | remove idx id _ ih => exact HIdxWF_remove idx id ih

theorem HnswReachFresh_neat {idx : HnswIndex} (h : HnswReachFresh idx) :
    HIdxNeat idx := by
  induction h with
  | new dim max_elements => exact HIdxNeat_new dim max_elements
  | insert sq idx id v _ hfresh ih => exact HIdxNeat_insert_fresh sq idx id v ih hfresh
  | remove idx id _ ih => exact HIdxNeat_remove idx id ih

-- ── Store-level invariants and reachability ─────────────────────────────────

/-- `VecBase::insert` with a wrong-length vector is a pure error: the result
pair carries `DimensionMismatch {expected, got}` and the unchanged store. -/
theorem insert_err (sq : ℚ → ℚ) (db : VecBase) (id : String) (v : List ℚ)
    (md : Option String) (h : v.length ≠ db.config.dim) :
    VecBase.insert sq db id v md =
      (Except.error (VecBaseError.DimensionMismatch db.config.dim v.length),
       db) := by
  unfold VecBase.insert
  rw [if_pos h]

/-- `VecBase::insert` with a correct-length vector: store the (possibly
normalized) vector in both the record map and the index. -/
theorem insert_ok (sq : ℚ → ℚ) (db : VecBase) (id : String) (v : List ℚ)
    (md : Option String) (h : v.length = db.config.dim) :
    VecBase.insert sq db id v md =
      (Except.ok (),
       { db with
         records := mapInsert id
           { id := id,
             vector := if db.metric = Metric.Cosine then normalize sq v else v,
             metadata := md } db.records,
         index := HnswIndex.insert sq db.index id
           (if db.metric = Metric.Cosine then normalize sq v else v) }) := by
  unfold VecBase.insert
  rw [if_neg (by rw [h]; exact fun e => e rfl)]

theorem insert_config (sq : ℚ → ℚ) (db : VecBase) (id : String) (v : List ℚ)
    (md : Option String) :
    (VecBase.insert sq db id v md).2.config = db.config := by
  unfold VecBase.insert
  split
  · rfl
  · rfl

theorem insert_get_mono (sq : ℚ → ℚ) (db : VecBase) (id : String)
    (v : List ℚ) (md : Option String) (x : String)
    (h : (VecBase.get db x).isSome) :
    (VecBase.get (VecBase.insert sq db id v md).2 x).isSome := by
  unfold VecBase.insert
  split
  · exact h
  · show (mapLookup x (mapInsert id _ db.records)).isSome
    by_cases hx : x = id
    · subst hx
      rw [mapLookup_mapInsert_self]
      rfl
    · rw [mapLookup_mapInsert_ne _ _ _ _ hx]
      exact h

/-- Structural well-formedness of a whole store: a well-formed index, unique
record keys agreeing with the stored record ids, and the graph's id set
contained in the record map's id set. -/
structure StoreWF (db : VecBase) : Prop where
  idx_wf : HIdxWF db.index
  rec_nodup : (recordKeys db).Nodup
  rec_key_id : ∀ p ∈ db.records, p.2.id = p.1
  graph_sub : ∀ x ∈ nodeKeys db.index, x ∈ recordKeys db

/-- Store states reachable through the public `VecBase` operations. -/
inductive Reachable : VecBase → Prop where
  | new : ∀ config, Reachable (VecBase.new config)
  | insert : ∀ sq db id v md, Reachable db →
      Reachable (VecBase.insert sq db id v md).2
  | delete : ∀ db id, Reachable db → Reachable (VecBase.delete db id).2

theorem StoreWF_new (config : VecBaseConfig) : StoreWF (VecBase.new config) := by
  refine ⟨HIdxWF_new _ _, ?_, ?_, ?_⟩ <;>
    simp [VecBase.new, recordKeys, nodeKeys, HnswIndex.new]

theorem StoreWF_insert (sq : ℚ → ℚ) (db : VecBase) (id : String) (v : List ℚ)
    (md : Option String) (h : StoreWF db) :
    StoreWF (VecBase.insert sq db id v md).2 := by
  by_cases hd : v.length = db.config.dim
  · rw [insert_ok sq db id v md hd]
    refine ⟨HIdxWF_insert _ _ _ _ h.idx_wf, ?_, ?_, ?_⟩
    · exact keys_nodup_mapInsert _ h.rec_nodup
    · intro p hp
      rcases mem_mapInsert hp with rfl | ⟨hmem, _⟩
      · rfl
      · exact h.rec_key_id p hmem
    · intro x hx
      rcases hnswInsert_keys_subset sq db.index id _ x hx with hxk | rfl
      · show x ∈ (mapInsert id _ db.records).map Prod.fst
        rw [mem_keys_mapInsert]
        exact Or.inl (h.graph_sub x hxk)
      · show x ∈ (mapInsert x _ db.records).map Prod.fst
        rw [mem_keys_mapInsert]
        exact Or.inr rfl
  · rw [insert_err sq db id v md hd]
    exact h

theorem StoreWF_delete (db : VecBase) (id : String) (h : StoreWF db) :
    StoreWF (VecBase.delete db id).2 := by
  unfold VecBase.delete
  split
  · exact h
  · refine ⟨HIdxWF_remove _ _ h.idx_wf, ?_, ?_, ?_⟩
    · show ((mapRemove id db.records).map Prod.fst).Nodup
      rw [keys_mapRemove]
      exact List.Nodup.filter _ h.rec_nodup
    · intro p hp
      rcases mem_mapRemove.mp hp with ⟨hmem, _⟩
      exact h.rec_key_id p hmem
    · intro x hx
      have hx1 : x ∈ (nodeKeys db.index).filter (fun y => y ≠ id) := by
        rw [show nodeKeys (HnswIndex.remove db.index id) =
            (nodeKeys db.index).filter (fun y => y ≠ id) from
          hnswRemove_keys db.index id] at hx
        exact hx
      have hxk : x ∈ nodeKeys db.index := List.mem_of_mem_filter hx1
      have hxne : x ≠ id := by
        have := List.of_mem_filter hx1
        simpa using this
      show x ∈ (mapRemove id db.records).map Prod.fst
      rw [keys_mapRemove]
      exact List.mem_filter.mpr ⟨h.graph_sub x hxk, by simpa using hxne⟩

theorem Reachable_wf {db : VecBase} (h : Reachable db) : StoreWF db := by
  induction h with
  | new config => exact StoreWF_new config
  | insert sq db id v md _ ih => exact StoreWF_insert sq db id v md ih
  | delete db id _ ih => exact StoreWF_delete db id ih

-- ── batch_insert loop characterization ──────────────────────────────────────

theorem batchStep_ok (sq : ℚ → ℚ) (acc : BatchResult × VecBase)
    (item : BatchInsert) (hd : item.vector.length = acc.2.config.dim) :
    batchStep sq acc item =
      ({ acc.1 with inserted := acc.1.inserted + 1 },
       (VecBase.insert sq acc.2 item.id item.vector item.metadata).2) := by
  unfold batchStep
  rw [insert_ok sq acc.2 item.id item.vector item.metadata hd]

theorem batchStep_err (sq : ℚ → ℚ) (acc : BatchResult × VecBase)
    (item : BatchInsert) (hd : ¬ item.vector.length = acc.2.config.dim) :
    batchStep sq acc item =
      ({ acc.1 with failed := acc.1.failed ++
          [(item.id, (VecBaseError.DimensionMismatch acc.2.config.dim
            item.vector.length).display)] },
       acc.2) := by
  unfold batchStep
  rw [insert_err sq acc.2 item.id item.vector item.metadata hd]

theorem batch_loop_spec (sq : ℚ → ℚ) :
    ∀ (items : List BatchInsert) (acc : BatchResult × VecBase),
      (items.foldl (batchStep sq) acc).2.config = acc.2.config ∧
      (items.foldl (batchStep sq) acc).1.inserted =
        acc.1.inserted +
          (items.filter
            (fun it => it.vector.length = acc.2.config.dim)).length ∧
      (items.foldl (batchStep sq) acc).1.failed =
        acc.1.failed ++
          (items.filter
            (fun it => ¬ it.vector.length = acc.2.config.dim)).map
            (fun it => (it.id, (VecBaseError.DimensionMismatch
              acc.2.config.dim it.vector.length).display)) ∧
      (∀ x, (VecBase.get acc.2 x).isSome →
        (VecBase.get (items.foldl (batchStep sq) acc).2 x).isSome) ∧
      (∀ it ∈ items, it.vector.length = acc.2.config.dim →
        (VecBase.get (items.foldl (batchStep sq) acc).2 it.id).isSome) := by
  intro items
  induction items with
  | nil =>
      intro acc
      exact ⟨rfl, by simp, by simp, fun x h => h, by simp⟩
  | cons item rest ih =>
      intro acc
      rw [List.foldl_cons]
      by_cases hd : item.vector.length = acc.2.config.dim
      · rw [batchStep_ok sq acc item hd]
        have h1 := ih ({ acc.1 with inserted := acc.1.inserted + 1 },
          (VecBase.insert sq acc.2 item.id item.vector item.metadata).2)
        rcases h1 with ⟨hcfg, hins, hfail, hmono, hall⟩
        rw [insert_config] at hcfg hins hfail hall
        refine ⟨hcfg, ?_, ?_, ?_, ?_⟩
        · rw [hins]
          dsimp only
          rw [List.filter_cons_of_pos (by simpa using hd)]
          rw [List.length_cons]
          omega
        · rw [hfail]
          rw [List.filter_cons_of_neg (by simpa using hd)]
        · intro x hx
          exact hmono x (insert_get_mono sq acc.2 item.id item.vector
            item.metadata x hx)
        · intro it hit hdit
          rcases List.mem_cons.mp hit with rfl | hrest
          · refine hmono it.id ?_
            rw [insert_ok sq acc.2 it.id it.vector it.metadata hdit]
            show (mapLookup it.id (mapInsert it.id _ acc.2.records)).isSome
            rw [mapLookup_mapInsert_self]
            rfl
          · exact hall it hrest hdit
      · rw [batchStep_err sq acc item hd]
        have h1 := ih ({ acc.1 with failed := acc.1.failed ++
            [(item.id, (VecBaseError.DimensionMismatch acc.2.config.dim
              item.vector.length).display)] }, acc.2)
        rcases h1 with ⟨hcfg, hins, hfail, hmono, hall⟩
        refine ⟨hcfg, ?_, ?_, ?_, ?_⟩
        · rw [hins]
          rw [List.filter_cons_of_neg (by simpa using hd)]
        · rw [hfail]
          rw [List.filter_cons_of_pos (by simpa using hd)]
          rw [List.map_cons, List.append_assoc]
          rfl
        · intro x hx
          exact hmono x hx
        · intro it hit hdit
          rcases List.mem_cons.mp hit with rfl | hrest
          · exact absurd hdit hd
          · exact hall it hrest hdit

-- ── Remaining generic helpers ───────────────────────────────────────────────

theorem pairwise_filterMap {α β : Type} (f : α → Option β) (R : α → α → Prop)
    (S : β → β → Prop)
    (hf : ∀ a a' b b', R a a' → f a = some b → f a' = some b' → S b b') :
    ∀ l, List.Pairwise R l → List.Pairwise S (l.filterMap f) := by
  intro l
  induction l with
  | nil =>
      intro _
      simp
  | cons x xs ih =>
      intro h
      rcases List.pairwise_cons.mp h with ⟨hx, hxs⟩
      rw [List.filterMap_cons]
      cases hfx : f x with
      | none => exact ih hxs
      | some b =>
          refine List.pairwise_cons.mpr ⟨?_, ih hxs⟩
          intro b' hb'
          rcases List.mem_filterMap.mp hb' with ⟨a', ha', hfa'⟩
          exact hf x a' b b' (hx a' ha') hfx hfa'

theorem filterMap_map_eq {α β γ : Type} (f : α → Option β) (g : β → γ)
    (h : α → γ) :
    ∀ l : List α, (∀ a ∈ l, ∃ b, f a = some b ∧ g b = h a) →
      (l.filterMap f).map g = l.map h := by
  intro l
  induction l with
  | nil =>
      intro _
      rfl
  | cons x xs ih =>
      intro hl
      rcases hl x (List.mem_cons_self _ _) with ⟨b, hfb, hgb⟩
      rw [List.filterMap_cons, hfb, List.map_cons, List.map_cons, hgb,
        ih (fun a ha => hl a (List.mem_cons_of_mem _ ha))]

theorem filter_length_split {α : Type} (p : α → Prop) [DecidablePred p]
    (l : List α) :
    (l.filter (fun a => p a)).length +
      (l.filter (fun a => ¬ p a)).length = l.length := by
  induction l with
  | nil => rfl
  | cons x xs ih =>
      by_cases hx : p x
      · rw [List.filter_cons_of_pos (by simpa using hx),
          List.filter_cons_of_neg (by simpa using hx), List.length_cons,
          List.length_cons]
        omega
      · rw [List.filter_cons_of_neg (by simpa using hx),
          List.filter_cons_of_pos (by simpa using hx), List.length_cons,
          List.length_cons]
        omega

-- ── Concrete states used by the claim theorems ──────────────────────────────

/-- A concrete stand-in for `f32::sqrt`, used to instantiate the `sq`
parameter in closed statements; none of the instantiated statements depend on
its values. -/
def sq0 : ℚ → ℚ := fun _ => 0

/-- dim 1, dot metric, capacity 1. -/
def cfg1 : VecBaseConfig :=
  { dim := 1, metric := "dot", max_elements := 1, storage_path := "./data" }

def dbA : VecBase := (VecBase.insert sq0 (VecBase.new cfg1) "a" [5] none).2

def dbAB : VecBase := (VecBase.insert sq0 dbA "b" [7] none).2

/-- dim 1, dot metric, capacity 2. -/
def cfg2 : VecBaseConfig :=
  { dim := 1, metric := "dot", max_elements := 2, storage_path := "./data" }

def db2a : VecBase := (VecBase.insert sq0 (VecBase.new cfg2) "a" [1] none).2

def db2b : VecBase := (VecBase.insert sq0 db2a "b" [2] none).2

def db2c : VecBase := (VecBase.insert sq0 db2b "c" [3] none).2

/-- dim 2, cosine metric. -/
def cfgCos : VecBaseConfig :=
  { dim := 2, metric := "cosine", max_elements := 10, storage_path := "./data" }

def idxA : HnswIndex := HnswIndex.insert sq0 (HnswIndex.new 1 100) "a" [1]

def idxAB : HnswIndex := HnswIndex.insert sq0 idxA "b" [1]

def idxABA : HnswIndex := HnswIndex.insert sq0 idxAB "a" [1]

/-- The node stored under "a" in `idxAB`. -/
def nA : Node := { id := "a", vector := [1], neighbors := [["b"]] }

def itemsW : List BatchInsert :=
  [{ id := "v1", vector := [1], metadata := none },
   { id := "v2", vector := [2], metadata := none },
   { id := "v3", vector := [1, 2], metadata := none }]

-- ── Claim theorems ──────────────────────────────────────────────────────────

/-- C1: the spec claims that after every successfully completed insert or
delete the record-map id set equals the graph id set.  The code violates
this: with `max_elements = 1`, two inserts both return `Ok`, yet the record
map holds ids `a, b` while the graph holds only `a` — `VecBase::insert`
updates the record map unconditionally while `HnswIndex::insert` silently
no-ops at capacity. -/
theorem C1_insert_capacity_divergence :
    (VecBase.insert sq0 (VecBase.new cfg1) "a" [5] none).1 = Except.ok () ∧
    (VecBase.insert sq0 dbA "b" [7] none).1 = Except.ok () ∧
    recordKeys dbAB = ["a", "b"] ∧
    nodeKeys dbAB.index = ["a"] := by
  refine ⟨rfl, rfl, by decide, by decide⟩

/-- C2: the spec scenario says three inserts with `max_elements = 2` leave
`len() == 2`.  The code gives `len() == 3`: only the graph drops the third
insert, while the record map — which `len` reports — grows past the cap. -/
theorem C2_len_exceeds_capacity :
    (VecBase.insert sq0 (VecBase.new cfg2) "a" [1] none).1 = Except.ok () ∧
    (VecBase.insert sq0 db2a "b" [2] none).1 = Except.ok () ∧
    (VecBase.insert sq0 db2b "c" [3] none).1 = Except.ok () ∧
    VecBase.len db2c = 3 ∧
    HnswIndex.len db2c.index = 2 := by
  refine ⟨rfl, rfl, rfl, by decide, by decide⟩

/-- C3 counterexample: re-inserting id `a` into a reachable 2-node graph
leaves node `a` with layer-0 list `["b", "a", "a"]` — a self-reference and a
duplicate — refuting the claimed no-duplicate / no-self-reference invariant
for re-inserts. -/
theorem C3_reinsert_counterexample :
    HnswReach idxABA ∧
    (mapLookup "a" idxABA.nodes).map layer0 = some ["b", "a", "a"] :=
  ⟨HnswReach.insert sq0 idxAB "a" [1]
     (HnswReach.insert sq0 idxA "b" [1]
       (HnswReach.insert sq0 (HnswIndex.new 1 100) "a" [1]
         (HnswReach.new 1 100))),
   by with_unfolding_all rfl⟩

/-- C3 (amended): in every reachable index state every node's layer-0
neighbor list has at most M = 16 entries; when no insert re-uses an id that
is currently present in the graph, the list additionally has no duplicates
and never contains the node's own id.  (The original claim also asserted
no-dup / no-self across re-inserts, which `C3_reinsert_counterexample`
refutes.) -/
theorem C3_neighbor_list_invariants :
    (∀ idx, HnswReach idx → ∀ p ∈ idx.nodes, (layer0 p.2).length ≤ 16) ∧
    (∀ idx, HnswReachFresh idx → ∀ p ∈ idx.nodes,
      (layer0 p.2).length ≤ 16 ∧ (layer0 p.2).Nodup ∧
        p.2.id ∉ layer0 p.2) := by
  constructor
  · intro idx h p hp
    have hwf := HnswReach_wf h
    have hb := hwf.bound p hp
    rw [hwf.m_eq] at hb
    exact hb
  · intro idx h p hp
    have hn := HnswReachFresh_neat h
    have hb := hn.wf.bound p hp
    rw [hn.wf.m_eq] at hb
    exact ⟨hb, hn.nodup0 p hp, hn.noself p hp⟩

/-- Witness for C3: the invariant instantiated at the concrete fresh-insert
reachable index `idxAB` and its node `a`. -/
theorem C3_neighbor_list_invariants_witness :
    (layer0 nA).length ≤ 16 ∧ (layer0 nA).Nodup ∧ nA.id ∉ layer0 nA :=
  C3_neighbor_list_invariants.2 idxAB
    (HnswReachFresh.insert sq0 idxA "b" [1]
      (HnswReachFresh.insert sq0 (HnswIndex.new 1 100) "a" [1]
        (HnswReachFresh.new 1 100) (by decide))
      (by decide))
    ("a", nA) (by decide)

/-- C4: when inserting a fresh id into a non-empty, under-capacity graph, the
new node's layer-0 neighbor list is exactly the id list selected by
`brute_search` under `Metric.Cosine`.  `HnswIndex::insert` receives no metric
argument at all, so this holds regardless of the store's configured metric. -/
theorem C4_wiring_uses_cosine (sq : ℚ → ℚ) (idx : HnswIndex) (id : String)
    (v : List ℚ) (hne : idx.nodes ≠ [])
    (hcap : idx.nodes.length < idx.max_elements)
    (hfresh : id ∉ nodeKeys idx) (hkid : ∀ p ∈ idx.nodes, p.2.id = p.1) :
    mapLookup id (HnswIndex.insert sq idx id v).nodes =
      some (setLayer0 { id := id, vector := v, neighbors := [[]] }
        ((HnswIndex.brute_search sq idx v idx.m Metric.Cosine).map
          (fun p => p.1))) := by
  unfold HnswIndex.insert
  rw [if_neg (by omega)]
  dsimp only
  rw [if_pos hne]
  have hno : ∀ p ∈ HnswIndex.brute_search sq idx v idx.m Metric.Cosine,
      p.1 ≠ id :=
    fun p hp e => hfresh (e ▸ brute_search_ids_sub hkid p hp)
  split
  · rw [foldl_pushBacklink_lookup_ne idx.m id id
      (HnswIndex.brute_search sq idx v idx.m Metric.Cosine) _ hno]
    exact mapLookup_mapInsert_self _ _ _
  · rw [foldl_pushBacklink_lookup_ne idx.m id id
      (HnswIndex.brute_search sq idx v idx.m Metric.Cosine) _ hno]
    exact mapLookup_mapInsert_self _ _ _

/-- Witness for C4: inserting "b" into the one-node index `idxA`. -/
theorem C4_wiring_uses_cosine_witness :
    mapLookup "b" (HnswIndex.insert sq0 idxA "b" [1]).nodes =
      some (setLayer0 { id := "b", vector := [1], neighbors := [[]] }
        ((HnswIndex.brute_search sq0 idxA [1] idxA.m Metric.Cosine).map
          (fun p => p.1))) :=
  C4_wiring_uses_cosine sq0 idxA "b" [1] (by decide) (by decide) (by decide)
    (by decide)

/-- C5: insert with a wrong-length vector returns
`DimensionMismatch {expected = dim, got = actual}` and the whole result state
is the unchanged store — no record or graph mutation, `len` unchanged. -/
theorem C5_insert_dimension_mismatch (sq : ℚ → ℚ) (db : VecBase) (id : String)
    (v : List ℚ) (md : Option String) (h : v.length ≠ db.config.dim) :
    VecBase.insert sq db id v md =
      (Except.error (VecBaseError.DimensionMismatch db.config.dim v.length),
       db) :=
  insert_err sq db id v md h

/-- Witness for C5: a length-2 vector against a dim-1 store. -/
theorem C5_insert_dimension_mismatch_witness :
    VecBase.insert sq0 dbA "x" [1, 2] none =
      (Except.error (VecBaseError.DimensionMismatch 1 2), dbA) :=
  C5_insert_dimension_mismatch sq0 dbA "x" [1, 2] none (by decide)

/-- C6: search with a wrong-length query returns the empty list — never an
error — for every store state (asymmetric with insert's hard failure). -/
theorem C6_search_dim_mismatch_empty (sq : ℚ → ℚ) (db : VecBase)
    (query : List ℚ) (top_k : Nat) (h : query.length ≠ db.config.dim) :
    VecBase.search sq db query top_k = [] := by
  unfold VecBase.search
  rw [if_pos h]

/-- Witness for C6: a length-2 query against a dim-1 store. -/
theorem C6_search_dim_mismatch_empty_witness :
    VecBase.search sq0 dbA [1, 2] 5 = [] :=
  C6_search_dim_mismatch_empty sq0 dbA [1, 2] 5 (by decide)

/-- C7 counterexample: in the reachable store `dbAB` (capacity 1, two
successful inserts), the query has the configured dimension, `k = 2` is at
least the store size `len() = 2 ≤ 500`, id `b` is stored, yet the search
result contains only `a` — refuting the claimed completeness. -/
theorem C7_dropped_record_counterexample :
    Reachable dbAB ∧
    ([(1 : ℚ)] : List ℚ).length = dbAB.config.dim ∧
    VecBase.len dbAB = 2 ∧
    VecBase.len dbAB ≤ 500 ∧
    (VecBase.get dbAB "b").isSome ∧
    (VecBase.search sq0 dbAB [1] 2).map SearchResult.id = ["a"] :=
  ⟨Reachable.insert sq0 dbA "b" [7] none
     (Reachable.insert sq0 (VecBase.new cfg1) "a" [5] none
       (Reachable.new cfg1)),
   by decide, by decide, by decide, by decide, by decide⟩

/-- C7 (amended): `search` always returns at most `k` results sorted
descending by score; and in every reachable store in which every stored id is
also a graph node (as holds whenever the capacity cap was never exceeded —
the counterexample shows the claim fails without this proviso), if the query
has the configured dimension, the store size is at most 500 and `k` is at
least the store size, then every stored id appears in the result. -/
theorem C7_search_sorted_and_complete (sq : ℚ → ℚ) (db : VecBase)
    (query : List ℚ) (k : Nat) :
    ((VecBase.search sq db query k).length ≤ k ∧
      List.Pairwise (fun a b => b.score ≤ a.score)
        (VecBase.search sq db query k)) ∧
    (Reachable db → query.length = db.config.dim →
      (∀ x ∈ recordKeys db, x ∈ nodeKeys db.index) →
      db.records.length ≤ 500 → db.records.length ≤ k →
      ∀ x ∈ recordKeys db,
        x ∈ (VecBase.search sq db query k).map SearchResult.id) := by
  constructor
  · unfold VecBase.search
    split
    · exact ⟨by simp, by simp⟩
    · dsimp only
      constructor
      · exact le_trans (List.length_filterMap_le _ _)
          (hnsw_search_length_le _ _ _ _ _)
      · refine pairwise_filterMap _ (fun a b : String × ℚ => b.2 ≤ a.2) _ ?_ _
          (hnsw_search_pairwise sq db.index _ k db.metric)
        intro a a' b b' hR hfa hfa'
        rcases Option.map_eq_some'.mp hfa with ⟨r1, _, rfl⟩
        rcases Option.map_eq_some'.mp hfa' with ⟨r2, _, rfl⟩
        exact hR
  · intro hreach hq hsub hsize hk x hx
    have wf := Reachable_wf hreach
    have hlen1 : (recordKeys db).length ≤ (nodeKeys db.index).length :=
      (List.subperm_of_subset wf.rec_nodup hsub).length_le
    have hlen2 : (nodeKeys db.index).length ≤ (recordKeys db).length :=
      (List.subperm_of_subset wf.idx_wf.keys_nodup wf.graph_sub).length_le
    have hreclen : (recordKeys db).length = db.records.length :=
      List.length_map _ _
    have hnodlen : (nodeKeys db.index).length = db.index.nodes.length :=
      List.length_map _ _
    have hnodes_len : db.index.nodes.length = db.records.length := by omega
    have hxn : x ∈ nodeKeys db.index := hsub x hx
    unfold VecBase.search
    rw [if_neg (by rw [hq]; exact fun e => e rfl)]
    dsimp only
    have hbr : HnswIndex.search sq db.index
        (if db.metric = Metric.Cosine then normalize sq query else query) k
        db.metric =
        HnswIndex.brute_search sq db.index
          (if db.metric = Metric.Cosine then normalize sq query else query) k
          db.metric := by
      unfold HnswIndex.search
      rw [if_neg (by
        intro he
        rw [nodeKeys, he] at hxn
        simp at hxn)]
      rw [if_pos (by
        show db.index.nodes.length ≤ BRUTE_THRESHOLD
        rw [hnodes_len]
        exact le_trans hsize (by norm_num [BRUTE_THRESHOLD]))]
    rw [hbr]
    have hxb : x ∈ (HnswIndex.brute_search sq db.index
        (if db.metric = Metric.Cosine then normalize sq query else query) k
        db.metric).map Prod.fst :=
      brute_search_complete wf.idx_wf.key_id
        (by rw [hnodes_len]; exact hk) x hxn
    rcases List.mem_map.mp hxb with ⟨r, hr, hrx⟩
    have hsome : (mapLookup x db.records).isSome :=
      mapLookup_isSome_iff.mpr hx
    cases hrec : mapLookup x db.records with
    | none =>
        rw [hrec] at hsome
        simp at hsome
    | some rcd =>
        refine List.mem_map.mpr
          ⟨{ id := rcd.id, score := r.2, metadata := rcd.metadata }, ?_, ?_⟩
        · refine List.mem_filterMap.mpr ⟨r, hr, ?_⟩
          dsimp only
          rw [hrx, hrec]
          rfl
        · show rcd.id = x
          exact wf.rec_key_id (x, rcd) (mapLookup_mem hrec)

/-- Witness for C7: the reachable, capacity-respecting store `db2b`. -/
theorem C7_search_sorted_and_complete_witness :
    "a" ∈ (VecBase.search sq0 db2b [1] 2).map SearchResult.id :=
  (C7_search_sorted_and_complete sq0 db2b [1] 2).2
    (Reachable.insert sq0 db2a "b" [2] none
      (Reachable.insert sq0 (VecBase.new cfg2) "a" [1] none
        (Reachable.new cfg2)))
    (by decide) (by decide) (by decide) (by decide) "a" (by decide)

/-- C8: after a successful insert, `get id` returns the record whose vector
is `normalize vector` when the store's parsed metric is cosine and exactly
`vector` otherwise. -/
theorem C8_get_after_insert (sq : ℚ → ℚ) (db : VecBase) (id : String)
    (v : List ℚ) (md : Option String) (h : v.length = db.config.dim) :
    VecBase.get (VecBase.insert sq db id v md).2 id =
      some { id := id,
             vector := if db.metric = Metric.Cosine then normalize sq v else v,
             metadata := md } := by
  rw [insert_ok sq db id v md h]
  show mapLookup id (mapInsert id _ db.records) = _
  rw [mapLookup_mapInsert_self]

/-- Witness for C8: a cosine store. -/
theorem C8_get_after_insert_witness :
    VecBase.get (VecBase.insert sq0 (VecBase.new cfgCos) "u" [3, 4] none).2
      "u" =
      some { id := "u",
             vector := if (VecBase.new cfgCos).metric = Metric.Cosine
               then normalize sq0 [3, 4] else [3, 4],
             metadata := none } :=
  C8_get_after_insert sq0 (VecBase.new cfgCos) "u" [3, 4] none (by decide)

/-- C9: `batch_insert` applies `insert` sequentially; `inserted` counts
exactly the items of correct dimension (dimension mismatch being `insert`'s
only failure mode), `failed` carries exactly one `(id, reason)` entry per
wrong-dimension item in batch order, the two counts partition the batch, and
every successfully inserted item is still present in the final store — no
rollback. -/
theorem C9_batch_insert_spec (sq : ℚ → ℚ) (db : VecBase)
    (items : List BatchInsert) :
    (batch_insert sq db items).1.inserted =
      (items.filter (fun it => it.vector.length = db.config.dim)).length ∧
    (batch_insert sq db items).1.failed =
      (items.filter (fun it => ¬ it.vector.length = db.config.dim)).map
        (fun it => (it.id, (VecBaseError.DimensionMismatch db.config.dim
          it.vector.length).display)) ∧
    (batch_insert sq db items).1.inserted +
      (batch_insert sq db items).1.failed.length = items.length ∧
    (∀ it ∈ items, it.vector.length = db.config.dim →
      (VecBase.get (batch_insert sq db items).2 it.id).isSome) := by
  have h := batch_loop_spec sq items ({ inserted := 0, failed := [] }, db)
  rcases h with ⟨_, hins, hfail, _, hall⟩
  dsimp only at hins hfail hall
  have h1 : (batch_insert sq db items).1.inserted =
      (items.filter (fun it => it.vector.length = db.config.dim)).length := by
    unfold batch_insert
    rw [hins]
    omega
  have h2 : (batch_insert sq db items).1.failed =
      (items.filter (fun it => ¬ it.vector.length = db.config.dim)).map
        (fun it => (it.id, (VecBaseError.DimensionMismatch db.config.dim
          it.vector.length).display)) := by
    unfold batch_insert
    rw [hfail]
    rfl
  refine ⟨h1, h2, ?_, ?_⟩
  · rw [h1, h2, List.length_map]
    exact filter_length_split
      (fun it : BatchInsert => it.vector.length = db.config.dim) items
  · intro it hit hd
    exact hall it hit hd

/-- Witness for C9: a three-item batch whose last item has the wrong
dimension; the first item remains present afterwards. -/
theorem C9_batch_insert_spec_witness :
    (VecBase.get (batch_insert sq0 (VecBase.new cfg2) itemsW).2 "v1").isSome :=
  (C9_batch_insert_spec sq0 (VecBase.new cfg2) itemsW).2.2.2
    { id := "v1", vector := [1], metadata := none } (by decide) (by decide)

/-- C10: in every reachable store the graph's id set is a subset of the
record map's id set — even when the capacity cap makes the two differ — and
consequently the record-map join in `search` drops nothing: the returned id
sequence equals the index's search id sequence. -/
theorem C10_graph_ids_subset_record_ids (db : VecBase) (h : Reachable db) :
    (∀ x ∈ nodeKeys db.index, x ∈ recordKeys db) ∧
    (∀ (sq : ℚ → ℚ) (query : List ℚ) (k : Nat),
      query.length = db.config.dim →
      (VecBase.search sq db query k).map SearchResult.id =
        (HnswIndex.search sq db.index
          (if db.metric = Metric.Cosine then normalize sq query else query) k
          db.metric).map Prod.fst) := by
  have wf := Reachable_wf h
  refine ⟨wf.graph_sub, ?_⟩
  intro sq query k hq
  unfold VecBase.search
  rw [if_neg (by rw [hq]; exact fun e => e rfl)]
  dsimp only
  refine filterMap_map_eq _ SearchResult.id Prod.fst _ ?_
  intro a ha
  have hak : a.1 ∈ nodeKeys db.index :=
    hnsw_search_ids_sub wf.idx_wf.key_id a ha
  have har : a.1 ∈ recordKeys db := wf.graph_sub a.1 hak
  have hsome : (mapLookup a.1 db.records).isSome :=
    mapLookup_isSome_iff.mpr har
  cases hrec : mapLookup a.1 db.records with
  | none =>
      rw [hrec] at hsome
      simp at hsome
  | some rcd =>
      refine ⟨{ id := rcd.id, score := a.2, metadata := rcd.metadata }, ?_, ?_⟩
      · rfl
      · show rcd.id = a.1
        exact wf.rec_key_id (a.1, rcd) (mapLookup_mem hrec)

/-- Witness for C10: the reachable store `db2b`, where the joined result ids
equal the index search ids. -/
theorem C10_graph_ids_subset_record_ids_witness :
    (VecBase.search sq0 db2b [1] 2).map SearchResult.id =
      (HnswIndex.search sq0 db2b.index
        (if db2b.metric = Metric.Cosine then normalize sq0 [1] else [1]) 2
        db2b.metric).map Prod.fst :=
  (C10_graph_ids_subset_record_ids db2b
    (Reachable.insert sq0 db2a "b" [2] none
      (Reachable.insert sq0 (VecBase.new cfg2) "a" [1] none
        (Reachable.new cfg2)))).2 sq0 [1] 2 (by decide)

end Vcore
